import Mathlib

/-!
# Verification of the RGAT layer and encoder/decoder model

Shallow embedding of `framework/models/rgat.py`: the constructor-time
validation of `RGATConv.__init__`, the `reset_parameters` routine, the
attention pipeline of `RGATConv.message` (relation transform, query/key
projection, grouped softmax normalization, post-normalization modulation,
per-edge message, sum aggregation), the transient `_alpha` state of
`RGATConv.forward`, and the DistMult `RGAT.decode` scorer.

Pure arithmetic that the source performs on floating-point tensors is
modelled over `ℚ` where no transcendental function occurs (constructor
checks, decode, parameter resets) and over `ℝ` where the softmax
normalization requires `Real.exp`.
-/

namespace RGAT

/-! ## Constructor validation (`RGATConv.__init__`, lines 27-151) -/

/-- Constructor arguments of `RGATConv`, with the Python defaults. -/
structure RGATConfig where
  in_channels : ℕ
  out_channels : ℕ
  num_relations : ℕ
  num_bases : Option ℕ := none
  num_blocks : Option ℕ := none
  mod : Option String := none
  attention_mechanism : String := "across-relation"
  attention_mode : String := "additive-self-attention"
  heads : ℕ := 1
  dim : ℕ := 1
  concat : Bool := true
  negative_slope : ℚ := 1/5
  dropout : ℚ := 0
  edge_dim : Option ℕ := none
  bias : Bool := true
  deriving Repr, DecidableEq

/-- The errors `RGATConv.__init__` can raise, one constructor per `raise` /
`assert` site, in source order. -/
inductive InitError where
  | mechanismValueError
  | modeValueError
  | additiveDimValueError
  | dropoutModValueError
  | basesBlocksValueError
  | blocksDivisibilityAssertionError
  deriving Repr, DecidableEq

/-- `mod_types` list from line 66. -/
def modTypes : List String := ["additive", "scaled", "f-additive", "f-scaled"]

/-- Python `self.mod in mod_types` (`None in mod_types` is `False`). -/
def modInModTypes (m : Option String) : Bool :=
  match m with
  | none => false
  | some s => s ∈ modTypes

/-- The validation performed by `RGATConv.__init__` (lines 66-141), in source
order: attention-mechanism check, attention-mode check, additive-mode `dim`
check, dropout/mod check, bases/blocks exclusivity check, and — when
`num_blocks` is set — the divisibility `assert` of lines 128-132, which runs
inside `__init__` (parameter tensors created in between raise nothing). -/
def rgatConvInit (c : RGATConfig) : Except InitError Unit :=
  if c.attention_mechanism ≠ "within-relation" ∧
      c.attention_mechanism ≠ "across-relation" then
    .error .mechanismValueError
  else if c.attention_mode ≠ "additive-self-attention" ∧
      c.attention_mode ≠ "multiplicative-self-attention" then
    .error .modeValueError
  else if c.attention_mode = "additive-self-attention" ∧ 1 < c.dim then
    .error .additiveDimValueError
  else if 0 < c.dropout ∧ modInModTypes c.mod then
    .error .dropoutModValueError
  else if c.num_bases.isSome ∧ c.num_blocks.isSome then
    .error .basesBlocksValueError
  else
    match c.num_bases, c.num_blocks with
    | some _, _ => .ok ()
    | none, some nb =>
        if c.in_channels % nb = 0 ∧ (c.heads * c.out_channels) % nb = 0 then
          .ok ()
        else
          .error .blocksDivisibilityAssertionError
    | none, none => .ok ()

/-! ## `RGAT.decode` (lines 384-391) -/

/-- Elementwise triple product `h * r * t` of line 389. -/
def tripleProd (h r t : List ℚ) : List ℚ :=
  List.zipWith (· * ·) (List.zipWith (· * ·) h r) t

/-- `RGAT.decode`: `h = z[edge_index[0]]`, `t = z[edge_index[1]]`,
`r = W[edge_type]`, `logits = torch.sum(h * r * t, dim=1)`.
`z` maps a node id to its embedding row; `W` maps a relation id to its
relation vector; `srcs`/`tgts` are the two rows of `edge_index`. -/
def decode (z : ℕ → List ℚ) (W : ℕ → List ℚ)
    (srcs tgts edgeType : List ℕ) : List ℚ :=
  (srcs.zip (tgts.zip edgeType)).map fun p =>
    (tripleProd (z p.1) (W p.2.2) (z p.2.1)).sum

/-! ## `RGATConv.reset_parameters` (lines 153-168) -/

/-- The learnable tensors of one `RGATConv` layer, flattened to index
functions.  `bias`, `lin_edge` and `e` are optional exactly as in
`__init__` (registered as `None` when absent). -/
structure ConvParams where
  weight : ℕ → ℚ
  att : ℕ → ℚ
  basis : ℕ → ℚ
  q : ℕ → ℚ
  k : ℕ → ℚ
  bias : Option (ℕ → ℚ)
  w : ℕ → ℚ
  l1 : ℕ → ℚ
  b1 : ℕ → ℚ
  l2 : ℕ → ℚ
  b2 : ℕ → ℚ
  lin_edge : Option (ℕ → ℚ)
  e : Option (ℕ → ℚ)

/-- One batch of fresh Glorot-uniform samples, one tensor per `glorot` call
site of `reset_parameters` (the host runtime's RNG is external to this
model, so the draws are passed in). -/
structure GlorotDraws where
  weight : ℕ → ℚ
  att : ℕ → ℚ
  basis : ℕ → ℚ
  q : ℕ → ℚ
  k : ℕ → ℚ
  lin_edge : ℕ → ℚ
  e : ℕ → ℚ

/-- `RGATConv.reset_parameters`, lines 153-168.  `numBases` mirrors
`self.num_bases`, `outCh` mirrors `self.out_channels`.  Line 164 computes
`torch.full(self.l2.size(), 1 / self.out_channels)` and discards the result
without assigning it, so `l2` is left untouched. -/
def resetParameters (numBases : Option ℕ) (outCh : ℕ)
    (p : ConvParams) (g : GlorotDraws) : ConvParams :=
  let _discardedFill : ℕ → ℚ := fun _ => 1 / (outCh : ℚ)
  { p with
    basis := if numBases.isSome then g.basis else p.basis
    att := if numBases.isSome then g.att else p.att
    weight := if numBases.isSome then p.weight else g.weight
    q := g.q
    k := g.k
    bias := p.bias.map fun _ => fun _ => 0
    l1 := fun _ => 1
    b1 := fun _ => 0
    b2 := fun _ => 0
    lin_edge := p.lin_edge.map fun _ => g.lin_edge
    e := p.e.map fun _ => g.e }

end RGAT

namespace RGAT

/-! ## The attention pipeline of `RGATConv.message` (lines 190-322)

The per-edge computation is modelled over `ℝ` (the grouped softmax requires
`Real.exp`).  Tensors are index functions; the edge list plays the role of
`edge_index`/`edge_type`, and a row of `edge_attr` is attached to its edge. -/

/-- One directed typed edge `src → tgt` carrying relation id `rel`.
`tgt` is the aggregation index (`index = edge_index[1]` under the default
source-to-target flow); `rel` is the edge's `edge_type` entry. -/
structure Edge where
  src : ℕ
  tgt : ℕ
  rel : ℕ
  deriving Repr, DecidableEq

/-- `attention_mechanism` (validated to one of two strings at line 68). -/
inductive AttnMechanism where
  | withinRelation
  | acrossRelation
  deriving Repr, DecidableEq

/-- `attention_mode` (validated to one of two strings at line 73). -/
inductive AttnMode where
  | additiveSelfAttention
  | multiplicativeSelfAttention
  deriving Repr, DecidableEq

/-- The four modulation strings of `mod_types` (line 66). -/
inductive ModKind where
  | additive
  | scaled
  | fAdditive
  | fScaled
  deriving Repr, DecidableEq

/-- The attributes of a constructed `RGATConv` layer that `message` reads
(evaluation mode: `self.training = False`, so the stochastic dropout branch
of lines 311-312 is inert).  Weight tensors are index functions:
`weight r i j` is entry `(i, j)` of relation `r`'s transform,
`q`/`k`/`e` are `(heads*out_channels) × (heads*dim)` matrices,
`lin_edge` is the optional `edge_dim → heads*out_channels` projection. -/
structure PipeLayer where
  heads : ℕ
  out_channels : ℕ
  in_channels : ℕ
  dim : ℕ
  num_relations : ℕ
  edge_dim : ℕ
  attention_mechanism : AttnMechanism
  attention_mode : AttnMode
  mod : Option ModKind
  negative_slope : ℝ
  weight : ℕ → ℕ → ℕ → ℝ
  q : ℕ → ℕ → ℝ
  k : ℕ → ℕ → ℝ
  lin_edge : Option (ℕ → ℕ → ℝ)
  e : ℕ → ℕ → ℝ
  w : ℕ → ℝ
  l1 : ℕ → ℝ
  b1 : ℕ → ℝ
  l2 : ℕ → ℕ → ℝ
  b2 : ℕ → ℝ

/-- `F.leaky_relu` with the configured negative slope. -/
noncomputable def leakyRelu (s a : ℝ) : ℝ :=
  if 0 ≤ a then a else s * a

/-- `outi = bmm(x_i.unsqueeze(1), w).squeeze(-2)` (line 215): the target
node's feature row through its edge's relation transform; component `j` of
the `heads*out_channels`-wide result. -/
noncomputable def outI (P : PipeLayer) (x : ℕ → ℕ → ℝ) (ed : Edge)
    (j : ℕ) : ℝ :=
  ∑ i in Finset.range P.in_channels, x ed.tgt i * P.weight ed.rel i j

/-- `outj` (line 216): the source node's feature row through the same
relation transform. -/
noncomputable def outJ (P : PipeLayer) (x : ℕ → ℕ → ℝ) (ed : Edge)
    (j : ℕ) : ℝ :=
  ∑ i in Finset.range P.in_channels, x ed.src i * P.weight ed.rel i j

/-- `qi = matmul(outi, q)` (line 218), component `c`. -/
noncomputable def qI (P : PipeLayer) (x : ℕ → ℕ → ℝ) (ed : Edge)
    (c : ℕ) : ℝ :=
  ∑ j in Finset.range (P.heads * P.out_channels), outI P x ed j * P.q j c

/-- `kj = matmul(outj, k)` (line 219), component `c`. -/
noncomputable def kJ (P : PipeLayer) (x : ℕ → ℕ → ℝ) (ed : Edge)
    (c : ℕ) : ℝ :=
  ∑ j in Finset.range (P.heads * P.out_channels), outJ P x ed j * P.k j c

/-- `alpha_edge = matmul(lin_edge(edge_attr), e)` (lines 228-233),
component `c` for the edge's attribute row.  (The `index_select` fallback of
lines 230-232 never fires: `lin_edge` preserves the row count.)  When
`lin_edge` is absent the surrounding `assert` of line 225 raises first, so
the `getD` default is unreachable. -/
noncomputable def alphaEdge (P : PipeLayer) (a : Edge → ℕ → ℝ) (ed : Edge)
    (c : ℕ) : ℝ :=
  ∑ j in Finset.range (P.heads * P.out_channels),
    (∑ dAttr in Finset.range P.edge_dim,
      a ed dAttr * (P.lin_edge.getD fun _ _ => 0) dAttr j) * P.e j c

/-- The raw (pre-normalization) attention logit of lines 235-245,
component `c` of the `heads*dim`-wide per-edge row. -/
noncomputable def rawAlpha (P : PipeLayer) (x : ℕ → ℕ → ℝ)
    (attr : Option (Edge → ℕ → ℝ)) (ed : Edge) (c : ℕ) : ℝ :=
  match P.attention_mode with
  | .additiveSelfAttention =>
      match attr with
      | none => leakyRelu P.negative_slope (qI P x ed c + kJ P x ed c)
      | some a =>
          leakyRelu P.negative_slope
            (qI P x ed c + kJ P x ed c + alphaEdge P a ed c)
  | .multiplicativeSelfAttention =>
      match attr with
      | none => qI P x ed c * kJ P x ed c
      | some a => qI P x ed c * kJ P x ed c * alphaEdge P a ed c

/-- Per-group maximum subtracted by `torch_geometric.utils.softmax` for
numerical stability (any group-constant shift leaves the exact value
unchanged, see `groupSoftmax_eq_plain`). -/
noncomputable def groupMax (es : List Edge) (f : Edge → ℝ) (t : ℕ) : ℝ :=
  ((es.filter fun e2 => e2.tgt == t).map f).foldr max 0

/-- Denominator of the stable grouped softmax: the sum of shifted
exponentials over the edges whose target is `t`. -/
noncomputable def stableExpSum (es : List Edge) (f : Edge → ℝ) (t : ℕ)
    (m : ℝ) : ℝ :=
  (es.map fun e2 => if e2.tgt = t then Real.exp (f e2 - m) else 0).sum

/-- `torch_geometric.utils.softmax(alpha, index)`: the grouped softmax over
the edges sharing one target node, evaluated at edge `ed`. -/
noncomputable def groupSoftmax (es : List Edge) (f : Edge → ℝ)
    (ed : Edge) : ℝ :=
  Real.exp (f ed - groupMax es f ed.tgt) /
    stableExpSum es f ed.tgt (groupMax es f ed.tgt)

/-- The normalized attention coefficient of lines 247-254, component `c`.
Across-relation: one softmax grouped by target node over all edges.
Within-relation: the loop over `r in range(num_relations)` writes
`softmax(alpha[mask], index[mask])` into the rows with `edge_type == r`, so
an edge's coefficient is the softmax over the edges of its own relation; a
row whose relation id is out of range keeps the `zeros_like` fill. -/
noncomputable def normAlpha (P : PipeLayer) (x : ℕ → ℕ → ℝ)
    (attr : Option (Edge → ℕ → ℝ)) (es : List Edge) (ed : Edge)
    (c : ℕ) : ℝ :=
  match P.attention_mechanism with
  | .acrossRelation => groupSoftmax es (fun e2 => rawAlpha P x attr e2 c) ed
  | .withinRelation =>
      if ed.rel < P.num_relations then
        groupSoftmax (es.filter fun e2 => e2.rel == ed.rel)
          (fun e2 => rawAlpha P x attr e2 c) ed
      else 0

/-- `scatter_add(ones, index, dim_size=size_i)[index]`: the in-degree of an
edge's target node (lines 278-280 and 306-308). -/
noncomputable def degreeCount (es : List Edge) (t : ℕ) : ℝ :=
  (es.map fun e2 => if e2.tgt = t then (1 : ℝ) else 0).sum

/-- The two-layer degree head of the `"scaled"` modulation (lines 278-283):
`degree @ l1 + b1`, ReLU, `@ l2 + b2`; component `o`. -/
noncomputable def degreeScale (P : PipeLayer) (es : List Edge) (ed : Edge)
    (o : ℕ) : ℝ :=
  (∑ j in Finset.range P.out_channels,
    max 0 (degreeCount es ed.tgt * P.l1 j + P.b1 j) * P.l2 j o) + P.b2 o

/-- The attention coefficient actually multiplied into the final per-edge
message for the fall-through modulations (lines 302-315, evaluation mode):
`f-additive` shifts strictly positive coefficients up by one,
`f-scaled` multiplies by the target's in-degree, and `mod = None` passes
the normalized coefficient through unchanged. -/
noncomputable def finalAlpha (P : PipeLayer) (x : ℕ → ℕ → ℝ)
    (attr : Option (Edge → ℕ → ℝ)) (es : List Edge) (ed : Edge)
    (c : ℕ) : ℝ :=
  match P.mod with
  | some .fAdditive =>
      if 0 < normAlpha P x attr es ed c then normAlpha P x attr es ed c + 1
      else normAlpha P x attr es ed c
  | some .fScaled => normAlpha P x attr es ed c * degreeCount es ed.tgt
  | _ => normAlpha P x attr es ed c

/-- The per-edge message returned by `RGATConv.message` (lines 258-322),
entry `(h, d, o)` of the per-edge output (the `d` axis is the broadcast
`dim` axis of the multiplicative mode; the additive mode ignores it). -/
noncomputable def message (P : PipeLayer) (x : ℕ → ℕ → ℝ)
    (attr : Option (Edge → ℕ → ℝ)) (es : List Edge) (ed : Edge)
    (h d o : ℕ) : ℝ :=
  match P.mod, P.attention_mode with
  | some .additive, .additiveSelfAttention =>
      outJ P x ed (h * P.out_channels + o) * normAlpha P x attr es ed h +
        P.w o * outJ P x ed (h * P.out_channels + o)
  | some .additive, .multiplicativeSelfAttention =>
      outJ P x ed (h * P.out_channels + o) *
          normAlpha P x attr es ed (h * P.dim + d) +
        P.w o * outJ P x ed (h * P.out_channels + o)
  | some .scaled, .additiveSelfAttention =>
      outJ P x ed (h * P.out_channels + o) * normAlpha P x attr es ed h *
        degreeScale P es ed o
  | some .scaled, .multiplicativeSelfAttention =>
      outJ P x ed (h * P.out_channels + o) *
          normAlpha P x attr es ed (h * P.dim + d) *
        degreeScale P es ed o
  | _, .additiveSelfAttention =>
      finalAlpha P x attr es ed h * outJ P x ed (h * P.out_channels + o)
  | _, .multiplicativeSelfAttention =>
      finalAlpha P x attr es ed (h * P.dim + d) *
        outJ P x ed (h * P.out_channels + o)

/-- The sum aggregation (`aggr='add'`, line 46): output row `t` of the
aggregation step, entry `(h, d, o)`, before the `update` bias. -/
noncomputable def aggOut (P : PipeLayer) (x : ℕ → ℕ → ℝ)
    (attr : Option (Edge → ℕ → ℝ)) (es : List Edge) (t h d o : ℕ) : ℝ :=
  (es.map fun e2 => if e2.tgt = t then message P x attr es e2 h d o else 0).sum

/-- The one error `message` raises on well-typed continuous input: the
`assert self.lin_edge is not None` of lines 225-227 when `edge_attr` is
passed to a layer built without `edge_dim`. -/
inductive MessageError where
  | missingLinEdgeAssertionError
  deriving Repr, DecidableEq

/-- `RGATConv.message` with its failure path: when `edge_attr` is supplied
but the layer has no `lin_edge` (i.e. `edge_dim` was not configured), the
assertion of line 225 raises before any message tensor is produced;
otherwise the per-edge messages are returned. -/
noncomputable def messageE (P : PipeLayer) (x : ℕ → ℕ → ℝ)
    (attr : Option (Edge → ℕ → ℝ)) (es : List Edge) :
    Except MessageError (Edge → ℕ → ℕ → ℕ → ℝ) :=
  match attr with
  | some _ =>
      match P.lin_edge with
      | none => .error .missingLinEdgeAssertionError
      | some _ => .ok fun ed h d o => message P x attr es ed h d o
  | none => .ok fun ed h d o => message P x attr es ed h d o

/-- The transient `_alpha` slot of the layer (declared line 25, cleared to
`None` at construction, line 149). -/
structure AlphaState where
  alpha : Option (Edge → ℕ → ℝ)

/-- The `self._alpha = alpha` assignment of line 256: during message
computation the slot holds the normalized (pre-modulation) coefficients. -/
noncomputable def messagePhaseState (P : PipeLayer) (x : ℕ → ℕ → ℝ)
    (attr : Option (Edge → ℕ → ℝ)) (es : List Edge) : AlphaState :=
  { alpha := some fun ed c => normAlpha P x attr es ed c }

/-- `RGATConv.forward` (lines 170-187) as a state transformer on the
`_alpha` slot: `propagate` runs `message` (which stores the coefficients in
the slot) and aggregates; forward then reads the slot (`alpha = self._alpha`,
line 177), clears it (`self._alpha = None`, line 179) and returns the
aggregated output together with the read coefficients when
`return_attention_weights` was a bool. -/
noncomputable def forwardS (P : PipeLayer) (_st : AlphaState)
    (x : ℕ → ℕ → ℝ) (attr : Option (Edge → ℕ → ℝ)) (es : List Edge)
    (returnAttentionWeights : Bool) :
    Except MessageError
      (AlphaState × (ℕ → ℕ → ℕ → ℕ → ℝ) × Option (Edge → ℕ → ℝ)) :=
  match messageE P x attr es with
  | .error err => .error err
  | .ok _ =>
      let stMid := messagePhaseState P x attr es
      let a := stMid.alpha
      let out := fun t h d o => aggOut P x attr es t h d o
      .ok (⟨none⟩, out, if returnAttentionWeights then a else none)

/-! ## Concrete configurations used by the constructor-validation claims -/

/-- `num_bases` and `num_blocks` both set; every other argument defaulted. -/
def cfgBasesBlocks : RGATConfig :=
  { in_channels := 4, out_channels := 4, num_relations := 2,
    num_bases := some 2, num_blocks := some 2 }

/-- Additive attention score (the default mode) with `dim = 2`. -/
def cfgAdditiveDim2 : RGATConfig :=
  { in_channels := 4, out_channels := 4, num_relations := 2, dim := 2 }

/-- `dropout = 0.5` with modulation `"scaled"`. -/
def cfgDropoutScaled : RGATConfig :=
  { in_channels := 4, out_channels := 4, num_relations := 2,
    mod := some "scaled", dropout := 1/2 }

/-- `in_channels = 8`, `heads * out_channels = 12`, `num_blocks = 3`:
8 is not a multiple of 3. -/
def cfgBlocks3 : RGATConfig :=
  { in_channels := 8, out_channels := 12, num_relations := 2,
    num_blocks := some 3 }

/-- `in_channels = 8`, `heads * out_channels = 12`, `num_blocks = 4`:
both divisibility constraints hold. -/
def cfgBlocks4 : RGATConfig :=
  { in_channels := 8, out_channels := 12, num_relations := 2,
    num_blocks := some 4 }

/-! ## Softmax normalization lemmas -/

/-- Proof-side abbreviation: the grouped exponential sum without the
stability shift. -/
noncomputable def plainExpSum (es : List Edge) (f : Edge → ℝ) (t : ℕ) : ℝ :=
  (es.map fun e2 => if e2.tgt = t then Real.exp (f e2) else 0).sum

theorem list_sum_map_div {α : Type} (l : List α) (g : α → ℝ) (D : ℝ) :
    (l.map fun a => g a / D).sum = (l.map g).sum / D := by
  induction l with
  | nil => simp
  | cons a l ih => simp [ih, add_div]

/-- The stability shift factors out of the grouped exponential sum. -/
theorem stableExpSum_eq_plain (es : List Edge) (f : Edge → ℝ) (t : ℕ)
    (m : ℝ) :
    stableExpSum es f t m = Real.exp (-m) * plainExpSum es f t := by
  unfold stableExpSum plainExpSum
  induction es with
  | nil => simp
  | cons a l ih =>
    simp only [List.map_cons, List.sum_cons, ih, mul_add]
    congr 1
    by_cases h : a.tgt = t
    · simp [h, sub_eq_add_neg, Real.exp_add, mul_comm]
    · simp [h]

/-- Subtracting the per-group maximum changes nothing over exact
arithmetic: the stable grouped softmax equals the plain one. -/
theorem groupSoftmax_eq_plain (es : List Edge) (f : Edge → ℝ) (ed : Edge) :
    groupSoftmax es f ed = Real.exp (f ed) / plainExpSum es f ed.tgt := by
  unfold groupSoftmax
  rw [stableExpSum_eq_plain,
    show Real.exp (f ed - groupMax es f ed.tgt) =
        Real.exp (-groupMax es f ed.tgt) * Real.exp (f ed) by
      rw [sub_eq_add_neg, Real.exp_add, mul_comm]]
  exact mul_div_mul_left _ _ (Real.exp_ne_zero _)

/-- The grouped exponential sum over a nonempty group is positive. -/
theorem plainExpSum_pos (es : List Edge) (f : Edge → ℝ) (t : ℕ)
    (hex : ∃ e0 ∈ es, e0.tgt = t) : 0 < plainExpSum es f t := by
  obtain ⟨e0, he0, ht0⟩ := hex
  have hmem : Real.exp (f e0) ∈
      es.map fun e2 => if e2.tgt = t then Real.exp (f e2) else 0 := by
    have := List.mem_map_of_mem
      (f := fun e2 => if e2.tgt = t then Real.exp (f e2) else 0) he0
    simpa [ht0] using this
  have hle := List.single_le_sum (l := es.map fun e2 =>
      if e2.tgt = t then Real.exp (f e2) else 0)
    (by
      intro y hy
      obtain ⟨ed, _, rfl⟩ := List.mem_map.mp hy
      by_cases h : ed.tgt = t
      · simp [h, (Real.exp_pos _).le]
      · simp [h])
    _ hmem
  exact lt_of_lt_of_le (Real.exp_pos _) hle

/-- The grouped softmax coefficients of a nonempty group sum to one. -/
theorem groupSoftmax_sum_one (es : List Edge) (f : Edge → ℝ) (t : ℕ)
    (hex : ∃ e0 ∈ es, e0.tgt = t) :
    (es.map fun ed => if ed.tgt = t then groupSoftmax es f ed else 0).sum
      = 1 := by
  have hD := plainExpSum_pos es f t hex
  have hpt : ∀ ed : Edge,
      (if ed.tgt = t then groupSoftmax es f ed else 0) =
        (if ed.tgt = t then Real.exp (f ed) else 0) / plainExpSum es f t := by
    intro ed
    by_cases h : ed.tgt = t
    · simp only [h, if_pos, if_true]
      rw [groupSoftmax_eq_plain, h]
    · simp [h]
  simp only [hpt]
  rw [list_sum_map_div]
  exact div_self (ne_of_gt hD)

/-- Summing the elementwise triple product of three equal-length lists is
the sum over channel indices of the product of the three entries. -/
theorem tripleProd_sum (h : List ℚ) : ∀ (r t : List ℚ),
    h.length = r.length → h.length = t.length →
    (tripleProd h r t).sum =
      ∑ c in Finset.range h.length, h.getD c 0 * r.getD c 0 * t.getD c 0 := by
  induction h with
  | nil => intro r t _ _; simp [tripleProd]
  | cons a h ih =>
    intro r t h1 h2
    cases r with
    | nil => simp at h1
    | cons b r =>
      cases t with
      | nil => simp at h2
      | cons c t =>
        simp only [tripleProd, List.zipWith_cons_cons, List.sum_cons,
          List.length_cons]
        rw [Finset.sum_range_succ']
        simp only [List.getD_cons_succ, List.getD_cons_zero]
        rw [← ih r t (by simpa using h1) (by simpa using h2)]
        simp [tripleProd, add_comm]

/-- **C6.** `decode` returns one scalar per edge, and the scalar for edge
`i` is the DistMult trilinear score: the sum over channels of the
elementwise product of the head node's embedding, the relation vector for
that edge's relation id, and the tail node's embedding. -/
theorem decode_distmult (z W : ℕ → List ℚ) (srcs tgts types : List ℕ)
    (i C : ℕ) (hi : i < srcs.length)
    (hlt : tgts.length = srcs.length) (hlr : types.length = srcs.length)
    (hh : (z (srcs.getD i 0)).length = C)
    (hr : (W (types.getD i 0)).length = C)
    (ht : (z (tgts.getD i 0)).length = C) :
    (decode z W srcs tgts types).length = srcs.length ∧
    (decode z W srcs tgts types).getD i 0 =
      ∑ c in Finset.range C,
        (z (srcs.getD i 0)).getD c 0 * (W (types.getD i 0)).getD c 0 *
          (z (tgts.getD i 0)).getD c 0 := by
  have hzip : (srcs.zip (tgts.zip types)).length = srcs.length := by
    simp [List.length_zip, hlt, hlr]
  have hit : i < tgts.length := by omega
  have hir : i < types.length := by omega
  have e1 : srcs.getD i 0 = srcs[i] := List.getD_eq_getElem srcs 0 hi
  have e2 : tgts.getD i 0 = tgts[i] := List.getD_eq_getElem tgts 0 hit
  have e3 : types.getD i 0 = types[i] := List.getD_eq_getElem types 0 hir
  rw [e1] at hh; rw [e3] at hr; rw [e2] at ht
  constructor
  · simp [decode, hzip]
  · have hi2 : i < (decode z W srcs tgts types).length := by
      simpa [decode, hzip] using hi
    rw [List.getD_eq_getElem _ _ hi2]
    simp only [decode, List.getElem_map, List.getElem_zip]
    rw [tripleProd_sum _ _ _ (by rw [hh, hr]) (by rw [hh, ht]), hh, e1, e2, e3]

/-- Sample node-embedding table for the decode witness. -/
def zSample : ℕ → List ℚ := fun n => [[1, 2], [3, 5], [7, 11]].getD n []

/-- Sample relation-vector table for the decode witness. -/
def wSample : ℕ → List ℚ := fun r => [[2, 3], [4, 6]].getD r []

/-- Witness for `decode_distmult` at the single edge `(0, relation 0, 1)`. -/
theorem decode_distmult_witness :
    (decode zSample wSample [0] [1] [0]).length = 1 ∧
    (decode zSample wSample [0] [1] [0]).getD 0 0 =
      ∑ c in Finset.range 2,
        (zSample (([0] : List ℕ).getD 0 0)).getD c 0 *
          (wSample (([0] : List ℕ).getD 0 0)).getD c 0 *
          (zSample (([1] : List ℕ).getD 0 0)).getD c 0 :=
  decode_distmult zSample wSample [0] [1] [0] 0 2 (by decide) (by decide)
    (by decide) (by decide) (by decide) (by decide)

/-- **C10.** `reset_parameters` never modifies the degree-modulation weight
`l2` — the constant-fill tensor computed for `l2`'s shape on line 164 is
discarded rather than assigned, so `l2` keeps exactly the values it held
before the call — while `q`, `k`, `bias`, `l1`, `b1`, `b2` and the
relation-transform weights (`weight` in full mode; `att` and `basis` in
basis-decomposition mode) are all (re)initialized. -/
theorem resetParameters_l2_frame (numBases : Option ℕ) (nb outCh : ℕ)
    (p : ConvParams) (g : GlorotDraws) (bf : ℕ → ℚ)
    (hb : p.bias = some bf) :
    (resetParameters numBases outCh p g).l2 = p.l2 ∧
    (resetParameters numBases outCh p g).q = g.q ∧
    (resetParameters numBases outCh p g).k = g.k ∧
    (resetParameters numBases outCh p g).bias = some (fun _ => (0 : ℚ)) ∧
    (resetParameters numBases outCh p g).l1 = (fun _ => (1 : ℚ)) ∧
    (resetParameters numBases outCh p g).b1 = (fun _ => (0 : ℚ)) ∧
    (resetParameters numBases outCh p g).b2 = (fun _ => (0 : ℚ)) ∧
    (resetParameters none outCh p g).weight = g.weight ∧
    (resetParameters (some nb) outCh p g).att = g.att ∧
    (resetParameters (some nb) outCh p g).basis = g.basis := by
  refine ⟨rfl, rfl, rfl, ?_, rfl, rfl, rfl, rfl, rfl, rfl⟩
  simp [resetParameters, hb]

/-- Sample parameter record for the reset witness: `bias` present, `l2`
holding a nonzero pattern. -/
def pSample : ConvParams :=
  { weight := fun _ => 2, att := fun _ => 3, basis := fun _ => 4,
    q := fun _ => 5, k := fun _ => 6, bias := some fun _ => 7,
    w := fun _ => 1, l1 := fun _ => 8, b1 := fun _ => 9,
    l2 := fun n => (n : ℚ) + 1, b2 := fun _ => 10,
    lin_edge := none, e := none }

/-- Sample Glorot draws for the reset witness. -/
def gSample : GlorotDraws :=
  { weight := fun _ => 11, att := fun _ => 12, basis := fun _ => 13,
    q := fun _ => 14, k := fun _ => 15, lin_edge := fun _ => 16,
    e := fun _ => 17 }

/-- Witness for `resetParameters_l2_frame` on `pSample`/`gSample`. -/
theorem resetParameters_l2_frame_witness :
    (resetParameters none 4 pSample gSample).l2 = pSample.l2 ∧
    (resetParameters none 4 pSample gSample).q = gSample.q ∧
    (resetParameters none 4 pSample gSample).k = gSample.k ∧
    (resetParameters none 4 pSample gSample).bias = some (fun _ => (0 : ℚ)) ∧
    (resetParameters none 4 pSample gSample).l1 = (fun _ => (1 : ℚ)) ∧
    (resetParameters none 4 pSample gSample).b1 = (fun _ => (0 : ℚ)) ∧
    (resetParameters none 4 pSample gSample).b2 = (fun _ => (0 : ℚ)) ∧
    (resetParameters none 4 pSample gSample).weight = gSample.weight ∧
    (resetParameters (some 1) 4 pSample gSample).att = gSample.att ∧
    (resetParameters (some 1) 4 pSample gSample).basis = gSample.basis :=
  resetParameters_l2_frame none 1 4 pSample gSample (fun _ => 7) rfl

/-- **C1.** With across-relation attention scope, for every target node
with at least one incoming edge the normalized attention coefficients of
its incoming edges sum to `1`, in every attention channel `c`; and every
node with in-degree `0` receives an all-zero output row from the sum
aggregation (before any bias is added). -/
theorem across_relation_sum_one_and_zero_rows (P : PipeLayer)
    (x : ℕ → ℕ → ℝ) (attr : Option (Edge → ℕ → ℝ)) (es : List Edge)
    (hmech : P.attention_mechanism = .acrossRelation) (t c h d o : ℕ) :
    ((∃ e0 ∈ es, e0.tgt = t) →
      (es.map fun ed =>
        if ed.tgt = t then normAlpha P x attr es ed c else 0).sum = 1) ∧
    ((∀ e0 ∈ es, e0.tgt ≠ t) → aggOut P x attr es t h d o = 0) := by
  constructor
  · intro hex
    have hnorm : ∀ ed : Edge, normAlpha P x attr es ed c =
        groupSoftmax es (fun e2 => rawAlpha P x attr e2 c) ed := by
      intro ed
      simp [normAlpha, hmech]
    simp only [hnorm]
    exact groupSoftmax_sum_one es (fun e2 => rawAlpha P x attr e2 c) t hex
  · intro hnone
    refine List.sum_eq_zero ?_
    intro y hy
    obtain ⟨ed, hed, rfl⟩ := List.mem_map.mp hy
    exact if_neg (hnone ed hed)

/-- Sample across-relation layer for the C1 witness: one head, one channel,
default additive score, no modulation. -/
noncomputable def pipeAcross : PipeLayer :=
  { heads := 1, out_channels := 1, in_channels := 1, dim := 1,
    num_relations := 2, edge_dim := 0,
    attention_mechanism := .acrossRelation,
    attention_mode := .additiveSelfAttention, mod := none,
    negative_slope := 1/5,
    weight := fun _ _ _ => 1, q := fun _ _ => 1, k := fun _ _ => 1,
    lin_edge := none, e := fun _ _ => 0, w := fun _ => 1,
    l1 := fun _ => 1, b1 := fun _ => 0, l2 := fun _ _ => 0,
    b2 := fun _ => 0 }

/-- Sample feature matrix: all-ones. -/
noncomputable def xSample : ℕ → ℕ → ℝ := fun _ _ => 1

/-- Sample edge list: two parallel-relation edges into node `0`, one edge
into node `1`; node `3` is isolated. -/
def esSample : List Edge := [⟨0, 0, 0⟩, ⟨1, 0, 1⟩, ⟨2, 1, 0⟩]

/-- Witness for `across_relation_sum_one_and_zero_rows`: node `0` has two
incoming edges whose coefficients sum to one; isolated node `3` gets a zero
aggregation row. -/
theorem across_relation_sum_one_and_zero_rows_witness :
    ((esSample.map fun ed =>
        if ed.tgt = 0 then normAlpha pipeAcross xSample none esSample ed 0
        else 0).sum = 1) ∧
    aggOut pipeAcross xSample none esSample 3 0 0 0 = 0 :=
  ⟨(across_relation_sum_one_and_zero_rows pipeAcross xSample none esSample
      rfl 0 0 0 0 0).1 ⟨⟨0, 0, 0⟩, by decide, rfl⟩,
   (across_relation_sum_one_and_zero_rows pipeAcross xSample none esSample
      rfl 3 0 0 0 0).2 (by decide)⟩

/-- Restricting a target-and-relation indicator sum to the relation's
filtered sublist. -/
theorem sum_indicator_filter_rel (es : List Edge) (r t : ℕ)
    (g : Edge → ℝ) :
    (es.map fun ed => if ed.tgt = t ∧ ed.rel = r then g ed else 0).sum =
      ((es.filter fun e2 => e2.rel == r).map fun ed =>
        if ed.tgt = t then g ed else 0).sum := by
  induction es with
  | nil => simp
  | cons a l ih =>
    by_cases hr : a.rel = r
    · by_cases ht : a.tgt = t
      · simp [List.filter_cons, hr, ht, ih]
      · simp [List.filter_cons, hr, ht, ih]
    · simp [List.filter_cons, hr, ih]

/-- **C2.** With within-relation attention scope, for every
`(target node, relation)` pair with at least one incident edge of that
relation, the coefficients over exactly the edges of that relation into
that node sum to `1` in every channel `c`; and the coefficient of a
relation-`r` edge depends only on the relation-`r` sublist, so edges of
other relations into the same node do not participate in that sum. -/
theorem within_relation_sum_one (P : PipeLayer) (x : ℕ → ℕ → ℝ)
    (attr : Option (Edge → ℕ → ℝ)) (es : List Edge)
    (hmech : P.attention_mechanism = .withinRelation) (t r c : ℕ)
    (hr : r < P.num_relations) :
    ((∃ e0 ∈ es, e0.tgt = t ∧ e0.rel = r) →
      (es.map fun ed =>
        if ed.tgt = t ∧ ed.rel = r then normAlpha P x attr es ed c
        else 0).sum = 1) ∧
    (∀ es2 : List Edge,
      es2.filter (fun e2 => e2.rel == r) = es.filter (fun e2 => e2.rel == r) →
      ∀ ed : Edge, ed.rel = r →
        normAlpha P x attr es2 ed c = normAlpha P x attr es ed c) := by
  constructor
  · intro hex
    obtain ⟨e0, he0, ht0, hr0⟩ := hex
    have key : ∀ ed ∈ es, (if ed.tgt = t ∧ ed.rel = r
        then normAlpha P x attr es ed c else 0) =
        (if ed.tgt = t ∧ ed.rel = r
        then groupSoftmax (es.filter fun e2 => e2.rel == r)
          (fun e2 => rawAlpha P x attr e2 c) ed else 0) := by
      intro ed _
      by_cases hcond : ed.tgt = t ∧ ed.rel = r
      · rw [if_pos hcond, if_pos hcond]
        simp [normAlpha, hmech, hcond.2, hr]
      · rw [if_neg hcond, if_neg hcond]
    rw [List.map_congr_left key, sum_indicator_filter_rel]
    refine groupSoftmax_sum_one _ _ _ ⟨e0, ?_, ht0⟩
    exact List.mem_filter.mpr ⟨he0, by simp [hr0]⟩
  · intro es2 hfil ed hrel
    simp [normAlpha, hmech, hrel, hr, hfil]

/-- Sample within-relation layer for the C2 witness. -/
noncomputable def pipeWithin : PipeLayer :=
  { pipeAcross with attention_mechanism := .withinRelation }

/-- Witness for `within_relation_sum_one` on `esSample`: node `0` has one
relation-`0` and one relation-`1` incoming edge; the relation-`0`
coefficients into node `0` sum to one on their own, and dropping the
relation-`1` edge does not change them. -/
theorem within_relation_sum_one_witness :
    ((esSample.map fun ed =>
        if ed.tgt = 0 ∧ ed.rel = 0
        then normAlpha pipeWithin xSample none esSample ed 0
        else 0).sum = 1) ∧
    normAlpha pipeWithin xSample none [⟨0, 0, 0⟩, ⟨2, 1, 0⟩] ⟨0, 0, 0⟩ 0 =
      normAlpha pipeWithin xSample none esSample ⟨0, 0, 0⟩ 0 :=
  ⟨(within_relation_sum_one pipeWithin xSample none esSample rfl 0 0 0
      (by decide)).1 ⟨⟨0, 0, 0⟩, by decide, rfl, rfl⟩,
   (within_relation_sum_one pipeWithin xSample none esSample rfl 0 0 0
      (by decide)).2 [⟨0, 0, 0⟩, ⟨2, 1, 0⟩] (by decide) ⟨0, 0, 0⟩ rfl⟩

/-- **C5.** Under `f-additive` modulation, every normalized attention
coefficient strictly greater than `0` is increased by exactly `1` before
the per-edge message product, coefficients `≤ 0` are left unchanged, and
the per-edge message is exactly the modulated coefficient times the
transformed source features — no residual term is added. -/
theorem f_additive_modulation (P : PipeLayer) (x : ℕ → ℕ → ℝ)
    (attr : Option (Edge → ℕ → ℝ)) (es : List Edge)
    (hmod : P.mod = some .fAdditive) (ed : Edge) (c h d o : ℕ) :
    (0 < normAlpha P x attr es ed c →
      finalAlpha P x attr es ed c = normAlpha P x attr es ed c + 1) ∧
    (normAlpha P x attr es ed c ≤ 0 →
      finalAlpha P x attr es ed c = normAlpha P x attr es ed c) ∧
    message P x attr es ed h d o =
      (match P.attention_mode with
        | .additiveSelfAttention =>
            finalAlpha P x attr es ed h *
              outJ P x ed (h * P.out_channels + o)
        | .multiplicativeSelfAttention =>
            finalAlpha P x attr es ed (h * P.dim + d) *
              outJ P x ed (h * P.out_channels + o)) := by
  refine ⟨?_, ?_, ?_⟩
  · intro hpos
    simp [finalAlpha, hmod, hpos]
  · intro hle
    simp [finalAlpha, hmod, not_lt.mpr hle]
  · cases hm : P.attention_mode <;> simp [message, hmod, hm]

/-- Across-relation sample layer with `f-additive` modulation. -/
noncomputable def pipeFAdd : PipeLayer :=
  { pipeAcross with mod := some .fAdditive }

/-- Within-relation sample layer with `f-additive` modulation (used to
exercise the non-positive-coefficient branch via an out-of-range relation
row, which keeps its `zeros_like` fill). -/
noncomputable def pipeFAddW : PipeLayer :=
  { pipeWithin with mod := some .fAdditive }

/-- Witness for `f_additive_modulation`: a softmax coefficient (strictly
positive) is shifted up by one; a zero coefficient is unchanged; the
message is the plain product. -/
theorem f_additive_modulation_witness :
    finalAlpha pipeFAdd xSample none esSample ⟨0, 0, 0⟩ 0 =
      normAlpha pipeFAdd xSample none esSample ⟨0, 0, 0⟩ 0 + 1 ∧
    finalAlpha pipeFAddW xSample none esSample ⟨0, 0, 5⟩ 0 =
      normAlpha pipeFAddW xSample none esSample ⟨0, 0, 5⟩ 0 ∧
    message pipeFAdd xSample none esSample ⟨0, 0, 0⟩ 0 0 0 =
      finalAlpha pipeFAdd xSample none esSample ⟨0, 0, 0⟩ 0 *
        outJ pipeFAdd xSample ⟨0, 0, 0⟩ (0 * pipeFAdd.out_channels + 0) := by
  have h1 := f_additive_modulation pipeFAdd xSample none esSample rfl
    ⟨0, 0, 0⟩ 0 0 0 0
  have h2 := f_additive_modulation pipeFAddW xSample none esSample rfl
    ⟨0, 0, 5⟩ 0 0 0 0
  have hpos : 0 < normAlpha pipeFAdd xSample none esSample ⟨0, 0, 0⟩ 0 := by
    rw [show normAlpha pipeFAdd xSample none esSample ⟨0, 0, 0⟩ 0 =
        groupSoftmax esSample
          (fun e2 => rawAlpha pipeFAdd xSample none e2 0) ⟨0, 0, 0⟩ from by
      simp [normAlpha, pipeFAdd, pipeAcross]]
    rw [groupSoftmax_eq_plain]
    exact div_pos (Real.exp_pos _)
      (plainExpSum_pos _ _ _ ⟨⟨0, 0, 0⟩, by decide, rfl⟩)
  have hzero : normAlpha pipeFAddW xSample none esSample ⟨0, 0, 5⟩ 0 ≤ 0 := by
    simp [normAlpha, pipeFAddW, pipeWithin, pipeAcross]
  exact ⟨h1.1 hpos, h2.2.1 hzero, h1.2.2⟩

/-- **C7.** If `message` runs with `edge_attr` supplied on a layer
constructed without `edge_dim` (so `lin_edge` is `None`), the call raises
the missing-edge-feature-projection assertion before producing any output
arrays, for every such input. -/
theorem missing_lin_edge_error (P : PipeLayer) (x : ℕ → ℕ → ℝ)
    (attr : Option (Edge → ℕ → ℝ)) (es : List Edge) (a : Edge → ℕ → ℝ)
    (hle : P.lin_edge = none) (ha : attr = some a) :
    messageE P x attr es = .error .missingLinEdgeAssertionError := by
  subst ha
  simp [messageE, hle]

/-- Sample edge-attribute rows for the C7 witness. -/
noncomputable def attrSample : Edge → ℕ → ℝ := fun _ _ => 1

/-- Witness for `missing_lin_edge_error`: `pipeAcross` has no `lin_edge`
and `attrSample` is supplied. -/
theorem missing_lin_edge_error_witness :
    messageE pipeAcross xSample (some attrSample) esSample =
      .error .missingLinEdgeAssertionError :=
  missing_lin_edge_error pipeAcross xSample (some attrSample) esSample
    attrSample rfl rfl

/-- **C9.** The transient attention-weights slot is set to the normalized
coefficients during message computation (line 256) and is `None` again in
the state any successful `forward` call returns — whether or not attention
weights were requested — so no attention weights from one call are ever
observable in a later call. -/
theorem alpha_cleared_after_forward (P : PipeLayer) (st : AlphaState)
    (x : ℕ → ℕ → ℝ) (attr : Option (Edge → ℕ → ℝ)) (es : List Edge)
    (b : Bool)
    (r : AlphaState × (ℕ → ℕ → ℕ → ℕ → ℝ) × Option (Edge → ℕ → ℝ))
    (hok : forwardS P st x attr es b = .ok r) :
    r.1.alpha = none ∧
    (messagePhaseState P x attr es).alpha =
      some fun ed c => normAlpha P x attr es ed c := by
  refine ⟨?_, rfl⟩
  unfold forwardS at hok
  cases hm : messageE P x attr es with
  | error err =>
      rw [hm] at hok
      exact absurd hok (by simp)
  | ok m =>
      rw [hm] at hok
      simp only [Except.ok.injEq] at hok
      rw [← hok]

/-- The value a successful sample forward call returns: cleared slot,
aggregated output, and the requested attention weights. -/
noncomputable def fwdSampleResult :
    AlphaState × (ℕ → ℕ → ℕ → ℕ → ℝ) × Option (Edge → ℕ → ℝ) :=
  (⟨none⟩, fun t h d o => aggOut pipeAcross xSample none esSample t h d o,
    some fun ed c => normAlpha pipeAcross xSample none esSample ed c)

/-- Witness for `alpha_cleared_after_forward` on a concrete successful
call with `return_attention_weights = true`. -/
theorem alpha_cleared_after_forward_witness :
    fwdSampleResult.1.alpha = none ∧
    (messagePhaseState pipeAcross xSample none esSample).alpha =
      some fun ed c => normAlpha pipeAcross xSample none esSample ed c :=
  alpha_cleared_after_forward pipeAcross ⟨none⟩ xSample none esSample true
    fwdSampleResult rfl

/-! ## Permutation invariance of the forward pass -/

theorem plainExpSum_perm {es es' : List Edge} (hp : es.Perm es')
    (f : Edge → ℝ) (t : ℕ) : plainExpSum es f t = plainExpSum es' f t := by
  unfold plainExpSum
  exact (hp.map fun e2 => if e2.tgt = t then Real.exp (f e2) else 0).sum_eq

theorem groupSoftmax_perm {es es' : List Edge} (hp : es.Perm es')
    (f : Edge → ℝ) (ed : Edge) :
    groupSoftmax es f ed = groupSoftmax es' f ed := by
  rw [groupSoftmax_eq_plain, groupSoftmax_eq_plain, plainExpSum_perm hp]

set_option maxHeartbeats 1000000 in
theorem normAlpha_perm (P : PipeLayer) (x : ℕ → ℕ → ℝ)
    (attr : Option (Edge → ℕ → ℝ)) {es es' : List Edge} (hp : es.Perm es')
    (ed : Edge) (c : ℕ) :
    normAlpha P x attr es ed c = normAlpha P x attr es' ed c := by
  cases hm : P.attention_mechanism with
  | acrossRelation =>
      simp only [normAlpha, hm]
      rw [groupSoftmax_eq_plain, groupSoftmax_eq_plain, plainExpSum_perm hp]
  | withinRelation =>
      simp only [normAlpha, hm]
      by_cases hrel : ed.rel < P.num_relations
      · simp only [if_pos hrel]
        have hpf := hp.filter fun e2 => e2.rel == ed.rel
        rw [groupSoftmax_eq_plain, groupSoftmax_eq_plain,
          plainExpSum_perm hpf]
      · simp only [if_neg hrel]

theorem degreeCount_perm {es es' : List Edge} (hp : es.Perm es') (t : ℕ) :
    degreeCount es t = degreeCount es' t := by
  unfold degreeCount
  exact (hp.map fun e2 => if e2.tgt = t then (1 : ℝ) else 0).sum_eq

theorem degreeScale_perm (P : PipeLayer) {es es' : List Edge}
    (hp : es.Perm es') (ed : Edge) (o : ℕ) :
    degreeScale P es ed o = degreeScale P es' ed o := by
  unfold degreeScale
  rw [degreeCount_perm hp]

theorem finalAlpha_perm (P : PipeLayer) (x : ℕ → ℕ → ℝ)
    (attr : Option (Edge → ℕ → ℝ)) {es es' : List Edge} (hp : es.Perm es')
    (ed : Edge) (c : ℕ) :
    finalAlpha P x attr es ed c = finalAlpha P x attr es' ed c := by
  unfold finalAlpha
  rw [normAlpha_perm P x attr hp, degreeCount_perm hp]

theorem message_perm (P : PipeLayer) (x : ℕ → ℕ → ℝ)
    (attr : Option (Edge → ℕ → ℝ)) {es es' : List Edge} (hp : es.Perm es')
    (ed : Edge) (h d o : ℕ) :
    message P x attr es ed h d o = message P x attr es' ed h d o := by
  unfold message
  rw [normAlpha_perm P x attr hp ed h,
    normAlpha_perm P x attr hp ed (h * P.dim + d),
    degreeScale_perm P hp ed o, finalAlpha_perm P x attr hp ed h,
    finalAlpha_perm P x attr hp ed (h * P.dim + d)]

/-- **C8.** Permuting the edge list (the `edge_index` columns together with
their `edge_type` and `edge_attr` rows, which travel with each edge) leaves
every row of the aggregated output unchanged over exact arithmetic, and the
per-edge attention coefficients are matched through the permutation: every
edge keeps the same coefficient value. -/
theorem forward_perm_invariant (P : PipeLayer) (x : ℕ → ℕ → ℝ)
    (attr : Option (Edge → ℕ → ℝ)) (es es' : List Edge)
    (hp : es.Perm es') (t c h d o : ℕ) :
    aggOut P x attr es t h d o = aggOut P x attr es' t h d o ∧
    (∀ ed : Edge,
      normAlpha P x attr es ed c = normAlpha P x attr es' ed c) := by
  constructor
  · unfold aggOut
    rw [List.map_congr_left fun e2 _ => by
      rw [message_perm P x attr hp e2 h d o]]
    exact (hp.map fun e2 =>
      if e2.tgt = t then message P x attr es' e2 h d o else 0).sum_eq
  · exact fun ed => normAlpha_perm P x attr hp ed c

/-- Edge list for the permutation witness, and its swap. -/
def esPermA : List Edge := [⟨0, 0, 0⟩, ⟨1, 0, 1⟩]

/-- `esPermA` with its two edges exchanged. -/
def esPermB : List Edge := [⟨1, 0, 1⟩, ⟨0, 0, 0⟩]

/-- Witness for `forward_perm_invariant`: swapping the two edges of
`esPermA` changes neither the aggregated row of node `0` nor either edge's
attention coefficient. -/
theorem forward_perm_invariant_witness :
    aggOut pipeAcross xSample none esPermA 0 0 0 0 =
      aggOut pipeAcross xSample none esPermB 0 0 0 0 ∧
    normAlpha pipeAcross xSample none esPermA ⟨0, 0, 0⟩ 0 =
      normAlpha pipeAcross xSample none esPermB ⟨0, 0, 0⟩ 0 := by
  have hp : esPermA.Perm esPermB := by
    unfold esPermA esPermB
    exact List.Perm.swap (⟨1, 0, 1⟩ : Edge) (⟨0, 0, 0⟩ : Edge) []
  exact ⟨(forward_perm_invariant pipeAcross xSample none esPermA esPermB
      hp 0 0 0 0 0).1,
    (forward_perm_invariant pipeAcross xSample none esPermA esPermB
      hp 0 0 0 0 0).2 ⟨0, 0, 0⟩⟩

/-- **C4.** Constructing with both `num_bases` and `num_blocks` set raises a
configuration error; constructing with the additive attention score and
`dim = 2` raises a configuration error; constructing with `dropout = 0.5`
and modulation `"scaled"` raises a configuration error — each synchronously
inside `__init__`, before any forward call. -/
theorem init_config_errors :
    rgatConvInit cfgBasesBlocks = .error .basesBlocksValueError ∧
    rgatConvInit cfgAdditiveDim2 = .error .additiveDimValueError ∧
    rgatConvInit cfgDropoutScaled = .error .dropoutModValueError :=
  ⟨rfl, rfl, by norm_num [rgatConvInit, cfgDropoutScaled, modInModTypes, modTypes]⟩

/-- **C3, counterexample.** With `in_channels = 8`,
`heads * out_channels = 12`, `num_blocks = 3`, construction does NOT
succeed: `__init__` itself raises (the divisibility `assert` sits at lines
128-132 of `__init__`, not in `message`), contradicting the claim that
construction succeeds regardless of divisibility and only the first forward
call raises. -/
theorem init_blocks3_fails_at_construction :
    rgatConvInit cfgBlocks3 ≠ .ok () := by
  norm_num [rgatConvInit, cfgBlocks3, modInModTypes, modTypes]
  exact fun h => Except.noConfusion h

/-- **C3, amended.** The block-diagonal divisibility constraints are checked
at construction time: `num_blocks = 3` with `in_channels = 8` and
`heads * out_channels = 12` raises the divisibility assertion error inside
`__init__`, while the divisible configuration `num_blocks = 4` constructs
successfully. -/
theorem init_blocks_divisibility_checked_at_construction :
    rgatConvInit cfgBlocks3 = .error .blocksDivisibilityAssertionError ∧
    rgatConvInit cfgBlocks4 = .ok () :=
  ⟨rfl, rfl⟩

end RGAT
